import Mathlib

/-
Verification of the response-parsing and report-rendering pipeline of
MindCare AI (src/app.py).

Strings are modelled as `List Char` (with `String` wrappers matching the
Python signatures).  Python's `re` semantics are embedded directly:
  * `re.IGNORECASE` is modelled as ASCII case folding (`lcChar`); the
    pattern literals are pure ASCII, and exotic Unicode one-way foldings
    (Kelvin sign, long s) are outside the scope of this development;
  * `\d` is modelled as `Char.isDigit` (ASCII digits);
  * `.` without `re.DOTALL` matches every character except `'\n'` — this
    is reflected exactly in the lazy-dot scanners below;
  * `re.findall` / `re.search` scan start positions left to right; a
    failed full-pattern attempt at one position moves the scan one
    character to the right; `findall` resumes after the end of a match.
-/

set_option autoImplicit false

namespace MindCare

/-- ASCII lower-casing of a character, used to model `re.IGNORECASE`. -/
def lcChar (c : Char) : Char :=
  if 'A' ≤ c ∧ c ≤ 'Z' then Char.ofNat (c.toNat + 32) else c

/-- Case-insensitive literal match of the pattern (first argument) at the
head of the input (second argument). -/
def ciStarts : List Char → List Char → Bool
  | [], _ => true
  | _ :: _, [] => false
  | p :: ps, c :: cs => (lcChar c = lcChar p) && ciStarts ps cs

/-- Numeric value of an ASCII digit. -/
def digitVal (c : Char) : Nat := c.toNat - 48

/-- Python `int(..)` applied to a run of ASCII digits. -/
def natOfDigits (ds : List Char) : Nat :=
  ds.foldl (fun n c => 10 * n + digitVal c) 0

/-- The alternation `(Positive|Neutral|Negative)` of `parse_sentiments`,
anchored at the head of the input, case-insensitive.  The captured group
is the text as it occurs in the input (Python's `findall` reports the
matched substring verbatim, with its original letter case). -/
def matchLabel (s : List Char) : Option (String × List Char) :=
  if ciStarts "Positive".data s then some (String.mk (s.take 8), s.drop 8)
  else if ciStarts "Neutral".data s then some (String.mk (s.take 7), s.drop 7)
  else if ciStarts "Negative".data s then some (String.mk (s.take 8), s.drop 8)
  else none

/-- The tail `.*?(\d+)%` of the sentiment pattern: the lazy dot advances
over non-newline characters until the greedy `(\d+)` followed by `%`
succeeds; a digit run not followed by `%` is passed through one character
at a time (exactly the backtracking the regex engine performs).  Returns
the captured digit run and the rest of the input after the `%`. -/
def dotsThenNumPct : List Char → Option (List Char × List Char)
  | [] => none
  | c :: cs =>
    if c.isDigit then
      match (c :: cs).dropWhile Char.isDigit with
      | '%' :: r => some ((c :: cs).takeWhile Char.isDigit, r)
      | _ => dotsThenNumPct cs
    else if c = '\n' then none
    else dotsThenNumPct cs

/-- The tail `.*?(\d{1,3})` of the risk pattern: the lazy dot advances
over non-newline characters until a digit is found; the greedy
`(\d{1,3})` then captures the first one-to-three digits of that run. -/
def dotsThenD13 : List Char → Option (List Char)
  | [] => none
  | c :: cs =>
    if c.isDigit then some (((c :: cs).takeWhile Char.isDigit).take 3)
    else if c = '\n' then none
    else dotsThenD13 cs

/-- One step of `re.findall(r"(Positive|Neutral|Negative).*?(\d+)%", text,
re.IGNORECASE)`, fuelled so that the scan is structurally recursive; the
fuel only ever decreases when the input shrinks, so `s.length` fuel is
always enough (see `findSentAux_eq_of_le`). -/
def findSentAux : Nat → List Char → List (String × Int)
  | 0, _ => []
  | _ + 1, [] => []
  | fuel + 1, c :: cs =>
    match matchLabel (c :: cs) with
    | some (lbl, rest) =>
      match dotsThenNumPct rest with
      | some (ds, rest2) => (lbl, (natOfDigits ds : Int)) :: findSentAux fuel rest2
      | none => findSentAux fuel cs
    | none => findSentAux fuel cs

/-- All matches of `re.findall(r"(Positive|Neutral|Negative).*?(\d+)%",
text, re.IGNORECASE)`, in scan order, as (captured label, captured
integer) pairs. -/
def findSentMatches (s : List Char) : List (String × Int) :=
  findSentAux s.length s

/-- Python `dict` assignment `d[k] = v`: an existing key keeps its
position and gets the new value; a new key is appended. -/
def insertOverwrite (m : List (String × Int)) (k : String) (v : Int) :
    List (String × Int) :=
  if m.any (fun p => p.1 = k) then m.map (fun p => if p.1 = k then (k, v) else p)
  else m ++ [(k, v)]

/-- The dict comprehension `{label: int(score) for label, score in matches}`:
pairs are inserted in scan order, later pairs overwriting earlier ones
with the same key. -/
def buildDict (ms : List (String × Int)) : List (String × Int) :=
  ms.foldl (fun m p => insertOverwrite m p.1 p.2) []

/-- Function `parse_sentiments` of src/app.py: the sentiment mapping, modelled as
an insertion-ordered association list (Python dicts preserve insertion
order). -/
def parse_sentiments (text : String) : List (String × Int) :=
  buildDict (findSentMatches text.data)

/-- The scan of `re.search(r"Risk.*?(\d{1,3})", text, re.IGNORECASE)`:
the leftmost start position at which the whole pattern matches wins; an
occurrence of "Risk" with no digit later on the same line does not match,
and the scan moves on.  Returns the captured digit group. -/
def riskDigits : List Char → Option (List Char)
  | [] => none
  | c :: cs =>
    if ciStarts "Risk".data (c :: cs) then
      match dotsThenD13 ((c :: cs).drop 4) with
      | some ds => some ds
      | none => riskDigits cs
    else riskDigits cs

/-- Function `parse_risk_score` of src/app.py: the captured digits converted with
`int(..)` and clamped by `max(0, min(val, 100))`; `0` when the pattern
does not match. -/
def parse_risk_score (text : String) : Int :=
  match riskDigits text.data with
  | some ds => max 0 (min ((natOfDigits ds : Int)) 100)
  | none => 0

/-- The three risk tiers of the specification. -/
inductive RiskTier where
  | LOW
  | MODERATE
  | HIGH
  deriving DecidableEq

/-- The tier decision of `display_risk_level` in src/app.py: `score >= 67`
is HIGH, `34 <= score <= 66` is MODERATE, everything else is LOW. -/
def classify (score : Int) : RiskTier :=
  if 67 ≤ score then RiskTier.HIGH
  else if 34 ≤ score ∧ score ≤ 66 then RiskTier.MODERATE
  else RiskTier.LOW

/-- The crisis-resources line emitted by `display_risk_level` on the HIGH
branch. -/
def crisisLine : String :=
  "[🆘 Crisis Support Resources](https://www.opencounseling.com/suicide-hotlines)"

/-- Function `display_risk_level` of src/app.py, modelled as the ordered list of
markdown lines it emits via `st.markdown`. -/
def display_risk_level (score : Int) : List String :=
  if 67 ≤ score then
    ["### 🔴 High Risk (" ++ toString score ++ "/100)", crisisLine]
  else if 34 ≤ score ∧ score ≤ 66 then
    ["### 🟠 Moderate Risk (" ++ toString score ++ "/100)"]
  else
    ["### 🟢 Low Risk (" ++ toString score ++ "/100)"]

/-- Python `text.split('\n')`: every newline separates, empty pieces are
kept, and the result is never empty. -/
def splitOnNl : List Char → List (List Char)
  | [] => [[]]
  | c :: cs =>
    if c = '\n' then [] :: splitOnNl cs
    else
      match splitOnNl cs with
      | l :: ls => (c :: l) :: ls
      | [] => [[c]]

/-- The character class stripped by Python `str.strip()` (ASCII range). -/
def isPySpace (c : Char) : Bool :=
  c = ' ' || c = '\t' || c = '\n' || c = '\r' || c = '\x0b' || c = '\x0c'

/-- Python `line.strip()`: drop leading and trailing whitespace. -/
def pyStrip (s : List Char) : List Char :=
  ((s.dropWhile isPySpace).reverse.dropWhile isPySpace).reverse

/-- Function `generate_pdf_report` of src/app.py, modelled as the ordered list of
rows of the document: one `pdf.cell(0, 10, txt=line.strip(), ln=True)`
call — one fixed-height row — per `'\n'`-separated line of the input,
FPDF's automatic page breaks carrying overflowing rows onto later pages
without dropping any. -/
def generate_pdf_report (text : String) : List (List Char) :=
  (splitOnNl text.data).map pyStrip

/-- First value bound to a key in an association list (the value a Python
dict lookup returns, since keys are unique by construction). -/
def lookupKey (k : String) : List (String × Int) → Option Int
  | [] => none
  | p :: ps => if p.1 = k then some p.2 else lookupKey k ps

/-- The score of the last match carrying a given label, in scan order. -/
def lastScore (k : String) (ms : List (String × Int)) : Option Int :=
  (ms.reverse.find? (fun p => p.1 = k)).map Prod.snd

/-- First-some combinator used to state lookup facts. -/
def fallback (a b : Option Int) : Option Int :=
  match a with
  | some v => some v
  | none => b

/-- The risk pattern anchored at the head of the input: "Risk"
(case-insensitive) and then the lazy-dot digit capture. -/
def riskAnchored (s : List Char) : Option (List Char) :=
  if ciStarts "Risk".data s then dotsThenD13 (s.drop 4) else none

/-- Everything before the next newline. -/
def notNl (c : Char) : Bool := !(c = '\n')

/-- The first run of digits of a list: `none` when it has no digit. -/
def firstDigitRun (l : List Char) : Option (List Char) :=
  if (l.dropWhile fun c => !c.isDigit) = [] then none
  else some ((l.dropWhile fun c => !c.isDigit).takeWhile Char.isDigit)

/-- The risk-score extraction as the claim words it: at each start
position in turn, the word "Risk" (case-insensitively) and then, among
the characters that follow it before the next newline, the first run of
digits, of which the first one-to-three are captured; the first position
where this succeeds wins. -/
def claimRiskAt (s : List Char) : Option Nat :=
  if ciStarts "Risk".data s then
    (firstDigitRun ((s.drop 4).takeWhile notNl)).map (fun ds => natOfDigits (ds.take 3))
  else none

/-- The claimed contract of `parse_risk_score`: the integer captured at
the first position where the pattern matches, clamped to [0,100], and 0
when no position matches. -/
def extractRiskScoreClaim (text : String) : Int :=
  match (List.range text.data.length).findSome? (fun i => claimRiskAt (text.data.drop i)) with
  | some v => max 0 (min ((v : Int)) 100)
  | none => 0

/-! ## Basic lemmas -/

theorem dotsThenD13_length_le (s : List Char) (ds : List Char)
    (h : dotsThenD13 s = some ds) : ds.length ≤ 3 := by
  induction s with
  | nil => simp [dotsThenD13] at h
  | cons c cs ih =>
    simp only [dotsThenD13] at h
    split at h
    · simp only [Option.some.injEq] at h
      subst h
      simp [Nat.min_le_left]
    · split at h
      · exact absurd h (by simp)
      · exact ih h

theorem riskDigits_length_le (s : List Char) (ds : List Char)
    (h : riskDigits s = some ds) : ds.length ≤ 3 := by
  induction s with
  | nil => simp [riskDigits] at h
  | cons c cs ih =>
    simp only [riskDigits] at h
    split at h
    · split at h
      · simp only [Option.some.injEq] at h
        subst h
        exact dotsThenD13_length_le _ _ (by assumption)
      · exact ih h
    · exact ih h

theorem dropWhile_length_le (p : Char → Bool) (l : List Char) :
    (l.dropWhile p).length ≤ l.length := by
  induction l with
  | nil => simp
  | cons c cs ih =>
    cases hp : p c <;> simp [List.dropWhile, hp]
    exact Nat.le_succ_of_le ih

theorem dotsThenNumPct_length (s : List Char) :
    ∀ ds r, dotsThenNumPct s = some (ds, r) → r.length < s.length := by
  induction s with
  | nil => simp [dotsThenNumPct]
  | cons c cs ih =>
    intro ds r h
    simp only [dotsThenNumPct] at h
    split at h
    · split at h
      next heq =>
        simp only [Option.some.injEq, Prod.mk.injEq] at h
        have hlen : ('%' :: r).length ≤ (c :: cs).length := by
          rw [← h.2, ← heq]
          exact dropWhile_length_le _ _
        simp only [List.length_cons] at hlen ⊢
        omega
      next => exact Nat.lt_trans (ih _ _ h) (by simp)
    · split at h
      · exact absurd h (by simp)
      · exact Nat.lt_trans (ih _ _ h) (by simp)

theorem matchLabel_rest_length (c : Char) (cs : List Char) (lbl : String)
    (rest : List Char) (h : matchLabel (c :: cs) = some (lbl, rest)) :
    rest.length ≤ cs.length := by
  unfold matchLabel at h
  split_ifs at h <;>
    · simp only [Option.some.injEq, Prod.mk.injEq] at h
      rw [← h.2]
      simp

theorem findSentAux_nil (fuel : Nat) : findSentAux fuel [] = [] := by
  cases fuel <;> rfl

theorem findSentAux_eq_of_le (f1 : Nat) : ∀ (f2 : Nat) (s : List Char),
    s.length ≤ f1 → s.length ≤ f2 → findSentAux f1 s = findSentAux f2 s := by
  induction f1 with
  | zero =>
    intro f2 s h1 _
    have : s = [] := List.length_eq_zero.mp (Nat.le_zero.mp h1)
    subst this
    rw [findSentAux_nil, findSentAux_nil]
  | succ n ih =>
    intro f2 s h1 h2
    cases s with
    | nil => rw [findSentAux_nil, findSentAux_nil]
    | cons c cs =>
      cases f2 with
      | zero => simp at h2
      | succ m =>
        simp only [List.length_cons] at h1 h2
        rw [findSentAux, findSentAux]
        rcases hm : matchLabel (c :: cs) with - | ⟨lbl, rest⟩ <;> simp only [hm]
        · exact ih m cs (by omega) (by omega)
        · have hrest := matchLabel_rest_length c cs lbl rest hm
          rcases hd : dotsThenNumPct rest with - | ⟨ds, rest2⟩ <;> simp only [hd]
          · exact ih m cs (by omega) (by omega)
          · have hr2 := dotsThenNumPct_length rest ds rest2 hd
            simp only [List.cons.injEq, true_and]
            exact ih m rest2 (by omega) (by omega)

/-- The `re.findall` recurrence satisfied by `findSentMatches`: try the
whole pattern at the current position; on success emit the captured pair
and resume after the match, on failure move one character right. -/
theorem findSentMatches_cons (c : Char) (cs : List Char) :
    findSentMatches (c :: cs) =
      match matchLabel (c :: cs) with
      | some (lbl, rest) =>
        match dotsThenNumPct rest with
        | some (ds, rest2) => (lbl, (natOfDigits ds : Int)) :: findSentMatches rest2
        | none => findSentMatches cs
      | none => findSentMatches cs := by
  show findSentAux (cs.length + 1) (c :: cs) = _
  rw [findSentAux]
  rcases hm : matchLabel (c :: cs) with - | ⟨lbl, rest⟩ <;> simp only [hm]
  · rfl
  · have hrest := matchLabel_rest_length c cs lbl rest hm
    rcases hd : dotsThenNumPct rest with - | ⟨ds, rest2⟩ <;> simp only [hd]
    · rfl
    · have hr2 := dotsThenNumPct_length rest ds rest2 hd
      simp only [List.cons.injEq, true_and]
      exact findSentAux_eq_of_le cs.length rest2.length rest2 (by omega) (Nat.le_refl _)

/-! ## Claim theorems (first batch) -/

/-- C1: for every score in the HIGH tier (67 and above), the banner
produced by `display_risk_level` consists of exactly the High-Risk
headline carrying the numeric score out of 100 and the crisis-resources
link; the link is emitted on every HIGH invocation, never suppressed. -/
theorem display_risk_level_high_banner (s : Int) (h : 67 ≤ s) :
    display_risk_level s =
      ["### 🔴 High Risk (" ++ toString s ++ "/100)", crisisLine] ∧
    crisisLine ∈ display_risk_level s := by
  have hd : display_risk_level s =
      ["### 🔴 High Risk (" ++ toString s ++ "/100)", crisisLine] := by
    simp [display_risk_level, h]
  exact ⟨hd, by rw [hd]; simp⟩

/-- Witness for C1 at score 72. -/
theorem display_risk_level_high_banner_witness :
    display_risk_level 72 = ["### 🔴 High Risk (72/100)", crisisLine] ∧
    crisisLine ∈ display_risk_level 72 := by
  have h := display_risk_level_high_banner 72 (by decide)
  exact ⟨h.1.trans (by decide), h.2⟩

/-- C2: on [0,100], `classify` yields LOW exactly on [0,33], MODERATE
exactly on [34,66] and HIGH exactly on [67,100]; the three ranges
partition [0,100] with no gap or overlap at 33/34 and 66/67. -/
theorem classify_partitions (s : Int) (h0 : 0 ≤ s) (h1 : s ≤ 100) :
    (classify s = RiskTier.LOW ↔ 0 ≤ s ∧ s ≤ 33) ∧
    (classify s = RiskTier.MODERATE ↔ 34 ≤ s ∧ s ≤ 66) ∧
    (classify s = RiskTier.HIGH ↔ 67 ≤ s ∧ s ≤ 100) := by
  unfold classify
  split_ifs with hA hB <;> refine ⟨?_, ?_, ?_⟩ <;> simp_all <;> omega

/-- Witness for C2 at score 50. -/
theorem classify_partitions_witness :
    (classify 50 = RiskTier.LOW ↔ 0 ≤ (50 : Int) ∧ (50 : Int) ≤ 33) ∧
    (classify 50 = RiskTier.MODERATE ↔ 34 ≤ (50 : Int) ∧ (50 : Int) ≤ 66) ∧
    (classify 50 = RiskTier.HIGH ↔ 67 ≤ (50 : Int) ∧ (50 : Int) ≤ 100) :=
  classify_partitions 50 (by decide) (by decide)

/-- C4: both extractions are total functions of the text (they are plain
definitions with no failure path), and absence of a matching pattern
yields the documented defaults: the empty mapping for sentiments and
score 0 for risk. -/
theorem parsing_defaults_on_miss (text : String)
    (hs : findSentMatches text.data = [])
    (hr : riskDigits text.data = none) :
    parse_sentiments text = [] ∧ parse_risk_score text = 0 := by
  constructor
  · simp [parse_sentiments, hs, buildDict]
  · simp [parse_risk_score, hr]

/-- Witness for C4 on a text with neither pattern. -/
theorem parsing_defaults_on_miss_witness :
    parse_sentiments "no sentiment info here" = [] ∧
    parse_risk_score "no sentiment info here" = 0 :=
  parsing_defaults_on_miss "no sentiment info here" (by decide) (by decide)

/-- C10: the captured risk-digit group always has at most three digits
(the regex `\d{1,3}` stops after three even inside a longer run), and on
"Risk Assessment Score: 2024" the first three digits 202 are captured
and then clamped, so the result is 100 — not 0 and not 2024. -/
theorem risk_captures_first_three_digits :
    (∀ s ds, riskDigits s = some ds → ds.length ≤ 3) ∧
    riskDigits "Risk Assessment Score: 2024".data = some ['2', '0', '2'] ∧
    parse_risk_score "Risk Assessment Score: 2024" = 100 :=
  ⟨fun s ds h => riskDigits_length_le s ds h, by decide, by decide⟩

/-- Witness for C10: the general bound applied at a concrete input. -/
theorem risk_captures_first_three_digits_witness :
    riskDigits "Risk 1234".data = some ['1', '2', '3'] ∧
    (['1', '2', '3'] : List Char).length ≤ 3 :=
  ⟨by decide, risk_captures_first_three_digits.1 "Risk 1234".data ['1', '2', '3'] (by decide)⟩

/-! ## Dictionary lemmas -/

theorem fallback_some (v : Int) (b : Option Int) : fallback (some v) b = some v := rfl

theorem fallback_none (b : Option Int) : fallback none b = b := rfl

theorem fallback_none_right (a : Option Int) : fallback a none = a := by
  cases a <;> rfl

theorem lookupKey_map_ne (k k' : String) (v : Int) (hkk : k ≠ k')
    (ps : List (String × Int)) :
    lookupKey k (ps.map (fun p => if p.1 = k' then (k', v) else p)) = lookupKey k ps := by
  induction ps with
  | nil => rfl
  | cons p ps ih =>
    by_cases hp : p.1 = k'
    · simp [lookupKey, hp, Ne.symm hkk, ih]
    · simp [lookupKey, hp, ih]

theorem lookupKey_map_self (k' : String) (v : Int) (ps : List (String × Int))
    (h : ps.any (fun p => p.1 = k') = true) :
    lookupKey k' (ps.map (fun p => if p.1 = k' then (k', v) else p)) = some v := by
  induction ps with
  | nil => simp at h
  | cons p ps ih =>
    by_cases hp : p.1 = k'
    · simp [lookupKey, hp]
    · simp only [List.any_cons, hp, decide_False, Bool.false_or] at h
      simp [lookupKey, hp, ih h]

theorem lookupKey_append (k : String) (l1 l2 : List (String × Int)) :
    lookupKey k (l1 ++ l2) = fallback (lookupKey k l1) (lookupKey k l2) := by
  induction l1 with
  | nil => rfl
  | cons p ps ih =>
    by_cases hp : p.1 = k <;> simp [lookupKey, hp, ih, fallback]

theorem lookupKey_eq_none (k : String) (m : List (String × Int))
    (h : m.any (fun p => p.1 = k) = false) : lookupKey k m = none := by
  induction m with
  | nil => rfl
  | cons p ps ih =>
    simp only [List.any_cons, Bool.or_eq_false_iff, decide_eq_false_iff_not] at h
    simp [lookupKey, h.1, ih h.2]

/-- Python dict assignment: looking up `k` after `d[k'] = v` gives `v` when
`k = k'` and the previous binding otherwise. -/
theorem lookupKey_insertOverwrite (m : List (String × Int)) (k k' : String) (v : Int) :
    lookupKey k (insertOverwrite m k' v) = if k = k' then some v else lookupKey k m := by
  unfold insertOverwrite
  by_cases hany : (m.any fun p => p.1 = k') = true
  · rw [if_pos hany]
    by_cases hk : k = k'
    · subst hk
      rw [if_pos rfl]
      exact lookupKey_map_self k v m hany
    · rw [if_neg hk]
      exact lookupKey_map_ne k k' v hk m
  · rw [if_neg hany]
    have hany' : (m.any fun p => p.1 = k') = false := by
      cases hx : (m.any fun p => p.1 = k')
      · rfl
      · exact absurd hx hany
    rw [lookupKey_append]
    by_cases hk : k = k'
    · subst hk
      rw [lookupKey_eq_none k m hany', fallback_none, if_pos rfl]
      simp [lookupKey]
    · have hsing : lookupKey k [(k', v)] = none := by simp [lookupKey, Ne.symm hk]
      rw [hsing, fallback_none_right, if_neg hk]

theorem lastScore_nil (k : String) : lastScore k [] = none := rfl

theorem lastScore_cons (k : String) (p : String × Int) (ms : List (String × Int)) :
    lastScore k (p :: ms) =
      fallback (lastScore k ms) (if p.1 = k then some p.2 else none) := by
  unfold lastScore
  rw [List.reverse_cons, List.find?_append]
  cases hf : ms.reverse.find? (fun q => q.1 = k) with
  | some q => simp [fallback]
  | none => by_cases hp : p.1 = k <;> simp [List.find?, hp, fallback]

theorem lookupKey_foldl (ms : List (String × Int)) :
    ∀ (acc : List (String × Int)) (k : String),
      lookupKey k (ms.foldl (fun m p => insertOverwrite m p.1 p.2) acc) =
        fallback (lastScore k ms) (lookupKey k acc) := by
  induction ms with
  | nil => intro acc k; rw [List.foldl_nil, lastScore_nil, fallback_none]
  | cons p ms ih =>
    intro acc k
    rw [List.foldl_cons, ih, lookupKey_insertOverwrite, lastScore_cons]
    cases hl : lastScore k ms with
    | some w => simp only [fallback_some]
    | none =>
      simp only [fallback_none]
      by_cases hp : p.1 = k
      · rw [if_pos hp, fallback_some, if_pos hp.symm]
      · rw [if_neg hp, fallback_none, if_neg (fun hh => hp hh.symm)]

theorem mem_insertOverwrite (m : List (String × Int)) (k' : String) (v' : Int)
    (p : String × Int) (h : p ∈ insertOverwrite m k' v') : p ∈ m ∨ p = (k', v') := by
  unfold insertOverwrite at h
  split at h
  · rcases List.mem_map.mp h with ⟨q, hq, hqe⟩
    by_cases hqk : q.1 = k'
    · right; rw [if_pos hqk] at hqe; exact hqe.symm
    · left; rw [if_neg hqk] at hqe; exact hqe ▸ hq
  · rcases List.mem_append.mp h with h1 | h1
    · exact Or.inl h1
    · right; simpa using h1

theorem mem_buildDict_aux (ms : List (String × Int)) :
    ∀ (acc : List (String × Int)) (p : String × Int),
      p ∈ ms.foldl (fun m q => insertOverwrite m q.1 q.2) acc → p ∈ acc ∨ p ∈ ms := by
  induction ms with
  | nil => intro acc p h; exact Or.inl h
  | cons q ms ih =>
    intro acc p h
    rw [List.foldl_cons] at h
    rcases ih _ p h with h1 | h1
    · rcases mem_insertOverwrite acc q.1 q.2 p h1 with h2 | h2
      · exact Or.inl h2
      · right; rw [h2]; simp
    · right; exact List.mem_cons_of_mem q h1

/-- Every (key, value) pair of the built dict is one of the scanned
matches (the one with the last value for that key). -/
theorem mem_buildDict (ms : List (String × Int)) (p : String × Int)
    (h : p ∈ buildDict ms) : p ∈ ms := by
  rcases mem_buildDict_aux ms [] p h with h1 | h1
  · simp at h1
  · exact h1

/-! ## Provenance of scanned matches -/

theorem ciStarts_take_map (p : List Char) :
    ∀ s : List Char, ciStarts p s = true →
      (s.take p.length).map lcChar = p.map lcChar := by
  induction p with
  | nil => intro s _; simp
  | cons a ps ih =>
    intro s h
    cases s with
    | nil => simp [ciStarts] at h
    | cons c cs =>
      simp only [ciStarts, Bool.and_eq_true, decide_eq_true_eq] at h
      simp only [List.length_cons, List.take_succ_cons, List.map_cons, h.1, ih cs h.2]

theorem matchLabel_key (s : List Char) (lbl : String) (rest : List Char)
    (h : matchLabel s = some (lbl, rest)) :
    lbl.data.map lcChar = "positive".data ∨
    lbl.data.map lcChar = "neutral".data ∨
    lbl.data.map lcChar = "negative".data := by
  unfold matchLabel at h
  split_ifs at h with h1 h2 h3 <;>
    simp only [Option.some.injEq, Prod.mk.injEq] at h <;>
    obtain ⟨hl, -⟩ := h
  · left
    have hx := ciStarts_take_map "Positive".data s h1
    rw [show ("Positive".data).length = 8 from rfl] at hx
    rw [show ("Positive".data).map lcChar = "positive".data by decide] at hx
    rw [← hl]
    exact hx
  · right; left
    have hx := ciStarts_take_map "Neutral".data s h2
    rw [show ("Neutral".data).length = 7 from rfl] at hx
    rw [show ("Neutral".data).map lcChar = "neutral".data by decide] at hx
    rw [← hl]
    exact hx
  · right; right
    have hx := ciStarts_take_map "Negative".data s h3
    rw [show ("Negative".data).length = 8 from rfl] at hx
    rw [show ("Negative".data).map lcChar = "negative".data by decide] at hx
    rw [← hl]
    exact hx

/-- Every pair the scanner emits carries a key that is a letter-case
variant of one of the three labels and a value that is a (nonnegative)
digit-run integer. -/
theorem findSentAux_mem (fuel : Nat) : ∀ (s : List Char) (k : String) (v : Int),
    (k, v) ∈ findSentAux fuel s →
      (k.data.map lcChar = "positive".data ∨ k.data.map lcChar = "neutral".data ∨
        k.data.map lcChar = "negative".data) ∧ 0 ≤ v := by
  induction fuel with
  | zero => intro s k v h; simp [findSentAux] at h
  | succ n ih =>
    intro s k v h
    cases s with
    | nil => rw [findSentAux_nil] at h; simp at h
    | cons c cs =>
      rw [findSentAux] at h
      rcases hm : matchLabel (c :: cs) with - | ⟨lbl, rest⟩ <;> simp only [hm] at h
      · exact ih cs k v h
      · rcases hd : dotsThenNumPct rest with - | ⟨ds, rest2⟩ <;> simp only [hd] at h
        · exact ih cs k v h
        · rcases List.mem_cons.mp h with h1 | h1
          · obtain ⟨hk, hv⟩ := Prod.mk.injEq .. ▸ h1
            subst hk
            subst hv
            exact ⟨matchLabel_key _ _ _ hm, Int.natCast_nonneg _⟩
          · exact ih rest2 k v h1

/-! ## Claim theorems: sentiment mapping -/

/-- C5 counterexample: a lower-case label occurrence yields the key
exactly as it stands in the text — "positive", not the canonical
"Positive"; no canonicalisation happens on output. -/
theorem parse_sentiments_key_keeps_text_case :
    parse_sentiments "positive 40%" = [("positive", 40)] ∧
    ("positive" : String) ∉ (["Positive", "Neutral", "Negative"] : List String) :=
  ⟨by decide, by decide⟩

/-- C5 amended: every key of the mapping is a letter-case variant of one
of Positive/Neutral/Negative (its ASCII lower-casing is "positive",
"neutral" or "negative"), kept as it occurred in the text; any other
label contributes no key. -/
theorem parse_sentiments_keys_are_label_variants (text : String) (k : String)
    (v : Int) (h : (k, v) ∈ parse_sentiments text) :
    k.data.map lcChar = "positive".data ∨ k.data.map lcChar = "neutral".data ∨
      k.data.map lcChar = "negative".data :=
  (findSentAux_mem _ _ _ _ (mem_buildDict _ _ h)).1

/-- Witness for the amended C5 on a mixed-case occurrence. -/
theorem parse_sentiments_keys_are_label_variants_witness :
    ("pOsItIvE" : String).data.map lcChar = "positive".data ∨
    ("pOsItIvE" : String).data.map lcChar = "neutral".data ∨
    ("pOsItIvE" : String).data.map lcChar = "negative".data :=
  parse_sentiments_keys_are_label_variants "pOsItIvE 30%" "pOsItIvE" 30 (by decide)

/-- C6 counterexample: the value captured for a label is not clamped to
[0,100] — the text "Positive 150%" binds 150. -/
theorem parse_sentiments_value_unclamped :
    parse_sentiments "Positive 150%" = [("Positive", 150)] ∧
    ¬ ((150 : Int) ≤ 100) :=
  ⟨by decide, by decide⟩

/-- C6 amended: every value of the mapping is a nonnegative integer (it
is the integer denoted by an unsigned digit run of the text); values are
passed through without clamping and may exceed 100. -/
theorem parse_sentiments_values_nonneg (text : String) (k : String) (v : Int)
    (h : (k, v) ∈ parse_sentiments text) : 0 ≤ v :=
  (findSentAux_mem _ _ _ _ (mem_buildDict _ _ h)).2

/-- Witness for the amended C6 on an out-of-range percentage. -/
theorem parse_sentiments_values_nonneg_witness : (0 : Int) ≤ 150 :=
  parse_sentiments_values_nonneg "Positive 150%" "Positive" 150 (by decide)

/-- C7: the value bound to a label in the mapping is the score of the
last (latest in scan order) match carrying exactly that label — later
matches overwrite earlier ones; a label with no match is unbound.  (The
dict key is the matched text itself, so "the same label" means the same
string, letter case included.) -/
theorem parse_sentiments_last_occurrence_wins (text : String) (k : String) :
    lookupKey k (parse_sentiments text) = lastScore k (findSentMatches text.data) := by
  have h := lookupKey_foldl (findSentMatches text.data) [] k
  rw [show lookupKey k ([] : List (String × Int)) = none from rfl,
    fallback_none_right] at h
  exact h

/-! ## Newline behaviour of the lazy dot -/

theorem ciStarts_append_self (p : List Char) : ∀ r, ciStarts p (p ++ r) = true := by
  induction p with
  | nil => intro r; rfl
  | cons a ps ih => intro r; simp [ciStarts, ih]

theorem matchLabel_positive (r : List Char) :
    matchLabel ('P' :: 'o' :: 's' :: 'i' :: 't' :: 'i' :: 'v' :: 'e' :: r) =
      some ("Positive", r) := by
  unfold matchLabel
  rw [if_pos (show ciStarts "Positive".data
      ('P' :: 'o' :: 's' :: 'i' :: 't' :: 'i' :: 'v' :: 'e' :: r) = true from
    ciStarts_append_self "Positive".data r)]
  rfl

theorem dotsThenNumPct_over_gap : ∀ gap : List Char,
    (∀ c ∈ gap, c.isDigit = false ∧ c ≠ '\n') →
    dotsThenNumPct (gap ++ "40%".data) = some (['4', '0'], [])
  | [], _ => rfl
  | c :: g, h => by
    have hc := h c (List.mem_cons_self c g)
    have ih := dotsThenNumPct_over_gap g (fun x hx => h x (List.mem_cons_of_mem c hx))
    simp only [List.cons_append, dotsThenNumPct, hc.1, hc.2]
    simpa using ih

theorem dotsThenD13_over_gap : ∀ gap : List Char,
    (∀ c ∈ gap, c.isDigit = false ∧ c ≠ '\n') →
    dotsThenD13 (gap ++ "72".data) = some ['7', '2']
  | [], _ => rfl
  | c :: g, h => by
    have hc := h c (List.mem_cons_self c g)
    have ih := dotsThenD13_over_gap g (fun x hx => h x (List.mem_cons_of_mem c hx))
    simp only [List.cons_append, dotsThenD13, hc.1, hc.2]
    simpa using ih

/-- C9 counterexample: the lazy dot of both patterns does not cross a
newline (Python `.` without `re.DOTALL`), so a label or "Risk" separated
from its number by a newline yields no extraction. -/
theorem extraction_blocked_by_newline :
    parse_sentiments "Positive:\n40%" = [] ∧ parse_risk_score "Risk:\n72" = 0 :=
  ⟨by decide, by decide⟩

/-- C9 amended: the keyword and its number may be separated by arbitrary
intervening NON-NEWLINE characters over the shortest span: across any
newline-free (and digit-free, so that the gap itself supplies no earlier
number) gap, the sentiment pair and the risk digits are extracted. -/
theorem extraction_spans_any_non_newline_gap (gap : List Char)
    (h : ∀ c ∈ gap, c.isDigit = false ∧ c ≠ '\n') :
    parse_sentiments (String.mk ("Positive".data ++ gap ++ "40%".data)) =
      [("Positive", 40)] ∧
    parse_risk_score (String.mk ("Risk".data ++ gap ++ "72".data)) = 72 := by
  constructor
  · have hlist : "Positive".data ++ gap ++ "40%".data =
        'P' :: ('o' :: 's' :: 'i' :: 't' :: 'i' :: 'v' :: 'e' :: (gap ++ "40%".data)) := rfl
    have hms : findSentMatches ("Positive".data ++ gap ++ "40%".data) =
        [("Positive", (40 : Int))] := by
      rw [hlist, findSentMatches_cons]
      simp only [matchLabel_positive, dotsThenNumPct_over_gap gap h]
      decide
    show buildDict (findSentMatches ("Positive".data ++ gap ++ "40%".data)) = _
    rw [hms]
    decide
  · have hr : riskDigits ("Risk".data ++ gap ++ "72".data) = some ['7', '2'] := by
      show (if ciStarts "Risk".data ('R' :: 'i' :: 's' :: 'k' :: (gap ++ "72".data)) then
              match dotsThenD13 (gap ++ "72".data) with
              | some ds => some ds
              | none => riskDigits ('i' :: 's' :: 'k' :: (gap ++ "72".data))
            else riskDigits ('i' :: 's' :: 'k' :: (gap ++ "72".data))) = some ['7', '2']
      rw [if_pos (show ciStarts "Risk".data
          ('R' :: 'i' :: 's' :: 'k' :: (gap ++ "72".data)) = true from
        ciStarts_append_self "Risk".data (gap ++ "72".data))]
      simp only [dotsThenD13_over_gap gap h]
    unfold parse_risk_score
    rw [show (String.mk ("Risk".data ++ gap ++ "72".data)).data =
          "Risk".data ++ gap ++ "72".data from rfl]
    rw [hr]
    decide

/-- Witness for the amended C9 with the gap ": ". -/
theorem extraction_spans_any_non_newline_gap_witness :
    parse_sentiments (String.mk ("Positive".data ++ [':', ' '] ++ "40%".data)) =
      [("Positive", 40)] ∧
    parse_risk_score (String.mk ("Risk".data ++ [':', ' '] ++ "72".data)) = 72 :=
  extraction_spans_any_non_newline_gap [':', ' '] (by decide)

/-! ## Document export -/

theorem splitOnNl_ne_nil (s : List Char) : splitOnNl s ≠ [] := by
  cases s with
  | nil => simp [splitOnNl]
  | cons c cs =>
    simp only [splitOnNl]
    split
    · simp
    · cases h : splitOnNl cs <;> simp

theorem splitOnNl_length (s : List Char) :
    (splitOnNl s).length = s.count '\n' + 1 := by
  induction s with
  | nil => rfl
  | cons c cs ih =>
    simp only [splitOnNl]
    by_cases hc : c = '\n'
    · rw [if_pos hc, List.count_cons]
      simp [hc, ih]
    · rw [if_neg hc, List.count_cons]
      cases h : splitOnNl cs with
      | nil => exact absurd h (splitOnNl_ne_nil cs)
      | cons l ls =>
        rw [h] at ih
        simp only [List.length_cons] at ih ⊢
        simp only [beq_iff_eq, hc, if_false]
        omega

/-- C8: the exported document has exactly one row per newline-separated
line of the input (N lines, N rows, across page boundaries), the i-th
row being the i-th line with surrounding whitespace stripped; hence the
stripped text of every line appears among the rendered rows. -/
theorem generate_pdf_report_rows (text : String) :
    (generate_pdf_report text).length = (splitOnNl text.data).length ∧
    (generate_pdf_report text).length = text.data.count '\n' + 1 ∧
    (∀ i (h1 : i < (generate_pdf_report text).length)
        (h2 : i < (splitOnNl text.data).length),
        (generate_pdf_report text).get ⟨i, h1⟩ =
          pyStrip ((splitOnNl text.data).get ⟨i, h2⟩)) ∧
    ∀ l ∈ splitOnNl text.data, pyStrip l ∈ generate_pdf_report text := by
  refine ⟨by simp [generate_pdf_report], ?_, ?_, ?_⟩
  · rw [show (generate_pdf_report text).length = (splitOnNl text.data).length by
        simp [generate_pdf_report]]
    exact splitOnNl_length text.data
  · intro i h1 h2
    simp [generate_pdf_report]
  · intro l hl
    exact List.mem_map_of_mem pyStrip hl

/-- Witness for C8 on the three-line text "a\n b \nc". -/
theorem generate_pdf_report_rows_witness :
    (generate_pdf_report "a\n b \nc").length = "a\n b \nc".data.count '\n' + 1 ∧
    (generate_pdf_report "a\n b \nc").get ⟨1, by decide⟩ =
      pyStrip ((splitOnNl "a\n b \nc".data).get ⟨1, by decide⟩) ∧
    pyStrip " b ".data ∈ generate_pdf_report "a\n b \nc" := by
  have h := generate_pdf_report_rows "a\n b \nc"
  exact ⟨h.2.1, h.2.2.1 1 (by decide) (by decide), h.2.2.2 " b ".data (by decide)⟩

/-! ## Characterisation of the risk-score search (C3) -/

theorem findSome?_cons_some {α β : Type} (f : α → Option β) (a : α) (l : List α)
    (b : β) (h : f a = some b) : (a :: l).findSome? f = some b := by
  simp [List.findSome?, h]

theorem findSome?_cons_none {α β : Type} (f : α → Option β) (a : α) (l : List α)
    (h : f a = none) : (a :: l).findSome? f = l.findSome? f := by
  simp [List.findSome?, h]

theorem findSome?_shift (g : List Char → Option (List Char)) (c : Char)
    (cs : List Char) : ∀ l : List Nat,
    (l.map Nat.succ).findSome? (fun i => g ((c :: cs).drop i)) =
      l.findSome? (fun i => g (cs.drop i)) := by
  intro l
  induction l with
  | nil => rfl
  | cons a l ih =>
    rw [List.map_cons]
    cases hg : g (cs.drop a) with
    | some b =>
      rw [findSome?_cons_some (fun i => g ((c :: cs).drop i)) (Nat.succ a)
          (List.map Nat.succ l) b hg,
        findSome?_cons_some (fun i => g (cs.drop i)) a l b hg]
    | none =>
      rw [findSome?_cons_none (fun i => g ((c :: cs).drop i)) (Nat.succ a)
          (List.map Nat.succ l) hg,
        findSome?_cons_none (fun i => g (cs.drop i)) a l hg, ih]

theorem riskDigits_eq_findSome (s : List Char) :
    riskDigits s = (List.range s.length).findSome? (fun i => riskAnchored (s.drop i)) := by
  induction s with
  | nil => rfl
  | cons c cs ih =>
    rw [List.length_cons, List.range_succ_eq_map]
    by_cases hk : ciStarts "Risk".data (c :: cs) = true
    · cases hd : dotsThenD13 ((c :: cs).drop 4) with
      | some ds =>
        have ha : riskAnchored ((c :: cs).drop 0) = some ds := by
          rw [List.drop_zero, riskAnchored, if_pos hk, hd]
        rw [findSome?_cons_some (fun i => riskAnchored ((c :: cs).drop i)) 0
            (List.map Nat.succ (List.range cs.length)) ds ha]
        simp only [riskDigits, hk, if_true, hd]
      | none =>
        have ha : riskAnchored ((c :: cs).drop 0) = none := by
          rw [List.drop_zero, riskAnchored, if_pos hk, hd]
        rw [findSome?_cons_none (fun i => riskAnchored ((c :: cs).drop i)) 0
            (List.map Nat.succ (List.range cs.length)) ha]
        simp only [riskDigits, hk, if_true, hd]
        rw [findSome?_shift riskAnchored c cs (List.range cs.length)]
        exact ih
    · have ha : riskAnchored ((c :: cs).drop 0) = none := by
        rw [List.drop_zero, riskAnchored, if_neg hk]
      rw [findSome?_cons_none (fun i => riskAnchored ((c :: cs).drop i)) 0
          (List.map Nat.succ (List.range cs.length)) ha]
      simp only [riskDigits, hk, if_false]
      rw [findSome?_shift riskAnchored c cs (List.range cs.length)]
      exact ih

theorem takeWhile_digit_of_line (s : List Char) :
    (s.takeWhile notNl).takeWhile Char.isDigit = s.takeWhile Char.isDigit := by
  induction s with
  | nil => rfl
  | cons c cs ih =>
    by_cases hd : c.isDigit = true
    · have hn : notNl c = true := by
        have : c ≠ '\n' := fun he => by rw [he] at hd; exact absurd hd (by decide)
        simp [notNl, this]
      rw [List.takeWhile_cons, if_pos hn, List.takeWhile_cons, if_pos hd,
        List.takeWhile_cons, if_pos hd, ih]
    · by_cases hn : c = '\n'
      · rw [List.takeWhile_cons, if_neg (by simp [notNl, hn]),
          List.takeWhile_cons, if_neg hd]
        rfl
      · rw [List.takeWhile_cons, if_pos (by simp [notNl, hn]),
          List.takeWhile_cons, if_neg hd, List.takeWhile_cons, if_neg hd]

theorem dotsThenD13_eq_lineScan (s : List Char) :
    dotsThenD13 s = (firstDigitRun (s.takeWhile notNl)).map (fun ds => ds.take 3) := by
  induction s with
  | nil => rfl
  | cons c cs ih =>
    by_cases hd : c.isDigit = true
    · have hn : notNl c = true := by
        have : c ≠ '\n' := fun he => by rw [he] at hd; exact absurd hd (by decide)
        simp [notNl, this]
      rw [List.takeWhile_cons, if_pos hn]
      have hrun : firstDigitRun (c :: cs.takeWhile notNl) =
          some ((c :: cs.takeWhile notNl).takeWhile Char.isDigit) := by
        rw [firstDigitRun,
          show (c :: cs.takeWhile notNl).dropWhile (fun x => !x.isDigit) =
            c :: cs.takeWhile notNl by
              rw [List.dropWhile_cons, if_neg (by simp [hd])],
          if_neg (by simp)]
      rw [hrun]
      simp only [dotsThenD13, hd, if_true, Option.map_some]
      rw [List.takeWhile_cons, if_pos hd, List.takeWhile_cons, if_pos hd,
        takeWhile_digit_of_line]
      rfl
    · by_cases hn : c = '\n'
      · rw [List.takeWhile_cons, if_neg (by simp [notNl, hn])]
        subst hn
        simp [dotsThenD13, firstDigitRun]
      · rw [List.takeWhile_cons, if_pos (by simp [notNl, hn])]
        have hdw : (c :: cs.takeWhile notNl).dropWhile (fun x => !x.isDigit) =
            (cs.takeWhile notNl).dropWhile (fun x => !x.isDigit) := by
          rw [List.dropWhile_cons, if_pos (by simp [hd])]
        rw [show dotsThenD13 (c :: cs) = dotsThenD13 cs by
            simp only [dotsThenD13, hd, Bool.false_eq_true, if_false, hn, ite_false],
          ih, firstDigitRun, firstDigitRun, hdw]

theorem claimRiskAt_eq (s : List Char) :
    claimRiskAt s = (riskAnchored s).map natOfDigits := by
  unfold claimRiskAt riskAnchored
  by_cases hk : ciStarts "Risk".data s = true
  · rw [if_pos hk, if_pos hk, dotsThenD13_eq_lineScan]
    cases firstDigitRun ((s.drop 4).takeWhile notNl) <;> simp
  · rw [if_neg hk, if_neg hk]
    rfl

theorem findSome?_option_map (g : Nat → Option (List Char)) (l : List Nat) :
    l.findSome? (fun i => (g i).map natOfDigits) = (l.findSome? g).map natOfDigits := by
  induction l with
  | nil => rfl
  | cons a l ih =>
    cases hg : g a with
    | some ds =>
      rw [findSome?_cons_some (fun i => (g i).map natOfDigits) a l (natOfDigits ds)
          (show (g a).map natOfDigits = some (natOfDigits ds) by rw [hg]; rfl),
        findSome?_cons_some g a l ds hg]
      rfl
    | none =>
      rw [findSome?_cons_none (fun i => (g i).map natOfDigits) a l
          (show (g a).map natOfDigits = none by rw [hg]; rfl),
        findSome?_cons_none g a l hg, ih]

/-- C3: `parse_risk_score` agrees everywhere with the claimed contract
`extractRiskScoreClaim`: scanning start positions left to right, the
first position bearing the word "Risk" (case-insensitively) followed —
before the next newline — by a digit yields the first one-to-three
digits of that run, clamped to [0,100]; texts with no such position
yield 0. -/
theorem parse_risk_score_matches_claim (text : String) :
    parse_risk_score text = extractRiskScoreClaim text := by
  unfold parse_risk_score extractRiskScoreClaim
  rw [riskDigits_eq_findSome]
  rw [show (fun i => claimRiskAt (text.data.drop i)) =
      (fun i => (riskAnchored (text.data.drop i)).map natOfDigits) from
    funext fun i => claimRiskAt_eq _]
  rw [findSome?_option_map]
  cases (List.range text.data.length).findSome? (fun i => riskAnchored (text.data.drop i)) <;>
    simp

end MindCare
